import Mathlib

/-!
# Verification of the wikipedia-mapper crawler and analytics

Shallow embedding of the core of the `wikipedia-mapper` Rust repository
(`src/crawler.rs`, `src/analytics.rs`, `src/pathfinder.rs`, `src/graph.rs`,
`src/stats.rs`, `src/state.rs`) together with theorems settling the spec
claims about it.

Modelling conventions:
* Rust `usize`/`u64` counters become `Nat` (the program only ever adds small
  increments, far from overflow; no wrap-around behaviour is relied upon).
* Rust `f64` PageRank arithmetic is embedded over `ℚ` (exact arithmetic with
  the same operation structure and the same operation order).
* `HashSet`/`HashMap` become lists holding the same content; insertion keeps
  first-insertion order.  Where the Rust program iterates a hash container in
  nondeterministic order, the embedding is parametrised by the enumeration
  order (see `calculate_pagerank_enum`).
* The concurrency of `Crawler::start_crawl` is embedded as a small-step
  interleaving semantics: each lock-protected critical section (and each
  lock-free queue operation) of a worker is one atomic step, and a schedule
  (a list of worker indices) chooses the interleaving.
* External collaborators (HTTP fetch, HTML link extraction) are oracles
  passed in as functions, per the spec's collaborator contracts.
-/

namespace WikipediaMapper

/-! ## String helpers (executable, over `List Char`) -/

/-- `listPrefixOf p l` : `p` is a prefix of `l` (Boolean, executable). -/
def listPrefixOf : List Char → List Char → Bool
  | [], _ => true
  | _ :: _, [] => false
  | x :: xs, y :: ys => x == y && listPrefixOf xs ys

/-- `listInfix needle hay` : `needle` occurs as a contiguous run in `hay`. -/
def listInfix : List Char → List Char → Bool
  | needle, [] => needle.isEmpty
  | needle, c :: t => listPrefixOf needle (c :: t) || listInfix needle t

/-- `strContains hay needle` : substring containment on `String`. -/
def strContains (hay needle : String) : Bool :=
  listInfix needle.toList hay.toList

/-- `strStartsWith s p` : `p` is a prefix of `s`. -/
def strStartsWith (s p : String) : Bool :=
  listPrefixOf p.toList s.toList

/-- `strContainsChar s c` : `c` occurs in `s`. -/
def strContainsChar (s : String) (c : Char) : Bool :=
  s.toList.contains c

/-! ## URL parsing

Model of the `url` crate's `Url::parse` restricted to the URL shapes this
program ever feeds it: absolute `scheme://host/path` URLs without userinfo,
port, query or fragment (fragments are rejected by the filter before parsing
matters).  `host_str()` is the authority up to the first `/`; `path()` is the
remainder (or `/` when absent).  Relative references (no `://`) fail to
parse, exactly as `Url::parse` fails with `RelativeUrlWithoutBase`. -/

structure ParsedUrl where
  host : String
  path : String
deriving DecidableEq

/-- Split the character list at the first `://`, returning (scheme, rest). -/
def splitScheme : List Char → Option (List Char × List Char)
  | [] => none
  | ':' :: '/' :: '/' :: rest => some ([], rest)
  | c :: rest =>
      match splitScheme rest with
      | none => none
      | some pr => some (c :: pr.1, pr.2)

/-- Parse an absolute URL into host and path (see the conventions above). -/
def parseUrl (url : String) : Option ParsedUrl :=
  match splitScheme url.toList with
  | none => none
  | some (scheme, rest) =>
      if scheme.isEmpty then none
      else
        let host := rest.takeWhile (fun c => c != '/')
        let path := rest.dropWhile (fun c => c != '/')
        some ⟨String.mk host, String.mk (if path.isEmpty then ['/'] else path)⟩

/-! ## URL filter (`src/crawler.rs`, `URLFilter`)

The Rust `INVALID_PATTERNS` are the regexes `Wikipedia:(.*?)`,
`Special:(.*?)`, ..., `Portal:(.*?)`.  Each is an unanchored literal followed
by a lazy group matching the empty string, so `pattern.is_match(path)` holds
iff the literal (e.g. `"Talk:"`) occurs as a substring of the path.  The
embedding therefore stores the literals and uses substring containment. -/

def INVALID_PATTERNS : List String :=
  ["Wikipedia:", "Special:", "Talk:", "User:", "File:", "Template:",
   "Help:", "Category:", "Portal:"]

structure URLFilter where
  allowed_domains : List String
  excluded_patterns : List String
  path_prefixes : List String
  custom_rules : List (String × (String → Bool))

/-- `URLFilter::default()`: allow `en.wikipedia.org`, path prefix `/wiki/`,
the standard excluded namespace patterns, no custom rules. -/
def URLFilter.default : URLFilter :=
  { allowed_domains := ["en.wikipedia.org"]
    excluded_patterns := INVALID_PATTERNS
    path_prefixes := ["/wiki/"]
    custom_rules := [] }

/-- `URLFilter::is_valid_url` (src/crawler.rs lines 83-121): reject fragments,
unparsable URLs, disallowed hosts, paths without an allowed prefix, paths
matching an excluded pattern, and URLs rejected by any custom rule. -/
def URLFilter.is_valid_url (f : URLFilter) (url : String) : Bool :=
  if strContainsChar url '#' then false
  else
    match parseUrl url with
    | none => false
    | some u =>
        if !(f.allowed_domains.contains u.host) then false
        else if !(f.path_prefixes.any (fun p => strStartsWith u.path p)) then false
        else if f.excluded_patterns.any (fun pat => strContains u.path pat) then false
        else f.custom_rules.all (fun r => r.2 url)

/-! ## Path finder (`src/pathfinder.rs`)

`PathFinder.adjacency_list : HashMap<String, Vec<String>>` is embedded as an
association list in key-first-insertion order; `entry(k).or_insert(vec![]).push(v)`
is `alPush`.  Key order never influences `find_shortest_path` (it only uses
`contains_key` and `get`). -/

/-- Association-list image of `map.entry(k).or_insert_with(Vec::new).push(v)`. -/
def alPush : List (String × List String) → String → String → List (String × List String)
  | [], k, v => [(k, [v])]
  | (k', vs) :: rest, k, v =>
      if k' == k then (k', vs ++ [v]) :: rest else (k', vs) :: alPush rest k v

namespace PathFinder

/-- The adjacency-list state of a `PathFinder`. -/
abbrev Adjacency := List (String × List String)

/-- `PathFinder::add_edge`: insert both directions (undirected view). -/
def add_edge (al : Adjacency) (fr t : String) : Adjacency :=
  alPush (alPush al fr t) t fr

/-- Building a `PathFinder` by adding every edge of an edge list in order
(as `load_from_json` and `main` do). -/
def fromEdges (es : List (String × String)) : Adjacency :=
  es.foldl (fun al e => add_edge al e.1 e.2) []

/-- `adjacency_list.get(k)`. -/
def alFind? (al : Adjacency) (k : String) : Option (List String) :=
  (al.find? (fun e => e.1 == k)).map Prod.snd

/-- `adjacency_list.contains_key(k)`. -/
def containsKey (al : Adjacency) (k : String) : Bool :=
  (alFind? al k).isSome

/-- The neighbor list of `k` (empty when `k` is not a key; the Rust BFS skips
the push loop in that case, which is the same thing). -/
def neighbors (al : Adjacency) (k : String) : List String :=
  (alFind? al k).getD []

/-- Typed image of the `anyhow!` failures of `find_shortest_path`.
`outOfFuel` is a technical marker of the embedding only: the Rust loop is
unbounded, and `find_shortest_path_no_fuel_out` proves the marker is never
returned by `find_shortest_path` (its fuel always suffices). -/
inductive PathError
  | startNotFound (s : String)
  | endNotFound (e : String)
  | noPath (s e : String)
  | reconstructFailed
  | outOfFuel
deriving DecidableEq

/-- `came_from.get(k)`. -/
def cfGet (cf : List (String × String)) (k : String) : Option String :=
  (cf.find? (fun e => e.1 == k)).map Prod.snd

/-- The `while current != start` loop of `reconstruct_path`.  The Rust loop is
unbounded; a chain through `came_from` visits distinct keys, so
`cf.length + 1` steps always suffice for the states the program reaches. -/
def reconstructLoop (cf : List (String × String)) (start : String) :
    Nat → String → List String → Option (List String)
  | 0, _, _ => none
  | fuel + 1, current, path =>
      if current == start then some path.reverse
      else
        match cfGet cf current with
        | none => none
        | some prev => reconstructLoop cf start fuel prev (path ++ [prev])

/-- `PathFinder::reconstruct_path`. -/
def reconstruct_path (cf : List (String × String)) (start e : String) :
    Option (List String) :=
  if (cfGet cf e).isSome then reconstructLoop cf start (cf.length + 1) e [e]
  else none

/-- `queue.push_back` / `visited.insert` / `came_from.insert` for the
neighbors of `current` (the inner `for next in neighbors` loop of the BFS). -/
def pushNeighbors (current : String) (ns : List String)
    (queue visited : List String) (cf : List (String × String)) :
    List String × List String × List (String × String) :=
  ns.foldl
    (fun acc next =>
      if acc.2.1.contains next then acc
      else (acc.1 ++ [next], acc.2.1 ++ [next], acc.2.2 ++ [(next, current)]))
    (queue, visited, cf)

/-- The `while let Some(current) = queue.pop_front()` loop of
`find_shortest_path`. -/
def bfsLoop (al : Adjacency) (start e : String) :
    Nat → List String → List String → List (String × String) →
    Except PathError (List String)
  | 0, _, _, _ => .error .outOfFuel
  | fuel + 1, queue, visited, cf =>
      match queue with
      | [] => .error (.noPath start e)
      | current :: rest =>
          if current == e then
            match reconstruct_path cf start e with
            | some p => .ok p
            | none => .error .reconstructFailed
          else
            let st := pushNeighbors current (neighbors al current) rest visited cf
            bfsLoop al start e fuel st.1 st.2.1 st.2.2

/-- One more than the number of distinct strings occurring anywhere in the
adjacency list; BFS visits at most this many nodes. -/
def nodeBound (al : Adjacency) : Nat :=
  ((al.map Prod.fst) ++ (al.map Prod.snd).flatten).dedup.length + 1

/-- `PathFinder::find_shortest_path` (src/pathfinder.rs lines 73-106). -/
def find_shortest_path (al : Adjacency) (s e : String) :
    Except PathError (List String) :=
  if !(containsKey al s) then .error (.startNotFound s)
  else if !(containsKey al e) then .error (.endNotFound e)
  else bfsLoop al s e (2 * nodeBound al + 2) [s] [s] []

/-- All strings occurring anywhere in the adjacency list. -/
def univList (al : Adjacency) : List String :=
  (al.map Prod.fst) ++ (al.map Prod.snd).flatten

/-- One BFS edge: `b` is in the stored neighbor list of `a`. -/
def Adjacent (al : Adjacency) (a b : String) : Prop :=
  b ∈ neighbors al a

/-- `b` is connected to `a` through the stored adjacency (the "a path
connects them" notion of the spec). -/
def Reach (al : Adjacency) (a b : String) : Prop :=
  Relation.ReflTransGen (Adjacent al) a b

end PathFinder

deriving instance DecidableEq for Except

namespace Analytics

/-! ## PageRank engine (`src/analytics.rs`)

`f64` is embedded as `ℚ` (exact arithmetic, same operations in the same
order).  `outbound_links`/`inbound_links` are `HashMap<String, Vec<String>>`
built by `load_from_edges`; the map *content* is a function of the edge list
(`outboundOf`/`inboundOf` below); the only place any hash-iteration order is
observable is `get_all_pages`, which chains the two key iterators — the
embedding therefore takes that enumeration as a parameter
(`calculate_pagerank_enum`), and `c6_pagerank_determinism` proves the result
does not depend on it (the code sorts and dedups the enumeration). -/

def DAMPING_FACTOR : ℚ := 85 / 100

def MAX_ITERATIONS : Nat := 100

def CONVERGENCE_THRESHOLD : ℚ := 1 / 100000000

structure PageRankResults where
  scores : List (String × ℚ)
  iterations : Nat
  converged : Bool
deriving DecidableEq

/-- Content of `outbound_links.get(s)`: the targets of the edges whose source
is `s`, in edge order, duplicates preserved (`load_from_edges` pushes one
entry per edge). -/
def outboundOf (edges : List (String × String)) (s : String) : List String :=
  (edges.filter (fun e => e.1 == s)).map Prod.snd

/-- Content of `inbound_links.get(p)`: the sources of the edges whose target
is `p`, in edge order, duplicates preserved. -/
def inboundOf (edges : List (String × String)) (p : String) : List String :=
  (edges.filter (fun e => e.2 == p)).map Prod.fst

/-- `outbound_links.get(source).map(|links| links.len()).unwrap_or(1)`:
the map has no entry for `source` exactly when no edge leaves `source`
(entries are created non-empty and only grow). -/
def outboundCount (edges : List (String × String)) (s : String) : Nat :=
  if (outboundOf edges s).length = 0 then 1 else (outboundOf edges s).length

/-- Insertion-order key set (`HashMap` keys as a set, in first-insertion
order — one entry per key, like the real key iterator, whose order is
nondeterministic; see `calculate_pagerank_enum`). -/
def keysIn (l : List String) : List String :=
  l.foldl (fun ks k => if ks.contains k then ks else ks ++ [k]) []

/-- One possible value of `outbound_links.keys().chain(inbound_links.keys())`. -/
def canonicalEnum (edges : List (String × String)) : List String :=
  keysIn (edges.map Prod.fst) ++ keysIn (edges.map Prod.snd)

/-- Rust `Vec::dedup`: remove *consecutive* repeats. -/
def dedupAdj : List String → List String
  | [] => []
  | [x] => [x]
  | x :: y :: rest =>
      if x == y then dedupAdj (y :: rest) else x :: dedupAdj (y :: rest)

/-- `Analytics::get_all_pages` applied to one enumeration of the chained key
iterators: `pages.sort(); pages.dedup();`.  (Rust's stable sort and any other
correct sort agree on a list of plain strings.) -/
def get_all_pages (enum : List String) : List String :=
  dedupAdj (List.insertionSort (fun a b => a ≤ b) enum)

/-- `scores.get(p)` with the `unwrap_or(&initial_score)` default. -/
def lookupScore (scores : List (String × ℚ)) (dflt : ℚ) (p : String) : ℚ :=
  match scores.find? (fun e => e.1 == p) with
  | some e => e.2
  | none => dflt

/-- The inner loop of one iteration: start from `(1-d)/N` and add
`d * score(source) / outbound_count(source)` for every recorded inbound
source of `p` (duplicates included). -/
def newScore (edges : List (String × String)) (numPages : Nat)
    (initial : ℚ) (scores : List (String × ℚ)) (p : String) : ℚ :=
  (inboundOf edges p).foldl
    (fun acc src =>
      acc + DAMPING_FACTOR * lookupScore scores initial src /
        (outboundCount edges src : ℚ))
    ((1 - DAMPING_FACTOR) / (numPages : ℚ))

/-- One `while` iteration body: build `new_scores` (one insert per page, in
page order) and accumulate `total_diff`. -/
def iterOnce (edges : List (String × String)) (pages : List String)
    (numPages : Nat) (initial : ℚ) (scores : List (String × ℚ)) :
    List (String × ℚ) × ℚ :=
  pages.foldl
    (fun acc p =>
      (acc.1 ++ [(p, newScore edges numPages initial scores p)],
        acc.2 + |newScore edges numPages initial scores p -
          lookupScore scores initial p|))
    ([], 0)

/-- The `while iterations < MAX_ITERATIONS` loop.  `fuel` is
`MAX_ITERATIONS - iterations`, so `fuel = 0` is exactly the loop guard
failing; on convergence the loop breaks *without* storing `new_scores` and
*without* bumping `iterations`, exactly as the Rust `break` does. -/
def pagerankLoop (edges : List (String × String)) (pages : List String)
    (numPages : Nat) (initial : ℚ) :
    Nat → List (String × ℚ) → Nat → List (String × ℚ) × Nat × Bool
  | 0, scores, iterations => (scores, iterations, false)
  | fuel + 1, scores, iterations =>
      let st := iterOnce edges pages numPages initial scores
      if st.2 < CONVERGENCE_THRESHOLD then (scores, iterations, true)
      else pagerankLoop edges pages numPages initial fuel st.1 (iterations + 1)

/-- `Analytics::calculate_pagerank` (src/analytics.rs lines 45-101), with the
hash-key enumeration order as an explicit parameter.  The Rust code calls
`get_all_pages()` afresh in every iteration with a fresh nondeterministic
key order; since every call sorts and dedups, all calls agree with
`get_all_pages enum` for any membership-equivalent `enum`
(see `c6_pagerank_determinism`), so one parameter suffices. -/
def calculate_pagerank_enum (edges : List (String × String))
    (enum : List String) : PageRankResults :=
  let pages := get_all_pages enum
  let numPages := pages.length
  let initial := 1 / (numPages : ℚ)
  let scores0 := pages.map (fun p => (p, initial))
  let r := pagerankLoop edges pages numPages initial MAX_ITERATIONS scores0 0
  ⟨r.1, r.2.1, r.2.2⟩

/-- `Analytics::calculate_pagerank` at the canonical enumeration. -/
def calculate_pagerank (edges : List (String × String)) : PageRankResults :=
  calculate_pagerank_enum edges (canonicalEnum edges)

/-- The page list of a run. -/
def pagesOf (edges : List (String × String)) : List String :=
  get_all_pages (canonicalEnum edges)

/-- `initial_score = 1.0 / num_pages`. -/
def initialOf (edges : List (String × String)) : ℚ :=
  1 / ((pagesOf edges).length : ℚ)

/-- The Jacobi iterate trace: `scoresAt k` is the `scores` map at the top of
the loop after `k` completed (non-breaking) iterations. -/
def scoresAt (edges : List (String × String)) : Nat → List (String × ℚ)
  | 0 => (pagesOf edges).map (fun p => (p, initialOf edges))
  | k + 1 =>
      (iterOnce edges (pagesOf edges) (pagesOf edges).length (initialOf edges)
        (scoresAt edges k)).1

/-- `total_diff` of the pass computed from `scoresAt k`. -/
def diffAt (edges : List (String × String)) (k : Nat) : ℚ :=
  (iterOnce edges (pagesOf edges) (pagesOf edges).length (initialOf edges)
    (scoresAt edges k)).2

/-- First pass index `≥ i` (within `fuel` passes) whose `total_diff` is below
the threshold. -/
def findConv (edges : List (String × String)) : Nat → Nat → Option Nat
  | _, 0 => none
  | i, fuel + 1 =>
      if diffAt edges i < CONVERGENCE_THRESHOLD then some i
      else findConv edges (i + 1) fuel

end Analytics

namespace Crawler

/-! ## Crawl engine (`src/crawler.rs`, `Crawler`)

Small-step interleaving semantics for `Crawler::start_crawl`.

Atomicity granularity: one step per lock-protected critical section or
lock-free queue operation, pure computation folded into the adjacent step
(it touches no shared state and commutes with every other worker's steps).
The URL filter is never mutated during a crawl (`add_custom_url_rule` is
called only before `start_crawl`), so its read-lock sections are pure here
and the filter is a fixed parameter.  Concretely, every `process_page` call
decomposes into:

* `PP.checks` — the depth guard and filter evaluation (pure) together with
  the visited-set read-lock membership check (lines 246-264); any failure
  discards the entry (`process_page` returns `Ok`).
* `PP.fetchStep` — the fetch await (lines 267-273); the ghost `fetchLog`
  records the dispatch; on failure `process_page` returns `Ok`.
* `PP.mark` — the visited-set *write*-lock section (lines 276-283):
  re-check membership, insert, bump `pages_visited` (the nested stats write
  happens while the visited write lock is held, hence one step).  The pure
  link extraction (lines 286-287) is folded into this transition via the
  `hrefs` oracle.
* `PP.filterLinks` — one visited-set read-lock acquisition per candidate
  URL (lines 290-300), one step per candidate.
* `PP.addEdges` — the graph write-lock section (lines 302-309); the
  lock-free queue pushes of the loop happen while that lock is held and are
  modelled inside the same step.
* `PP.bumpStats` — the stats write-lock section (lines 311-316).

The worker loop (lines 348-384) adds: `loopHead` (budget test + lock-free
pop), `preCheck` (the worker's own visited read-lock check; `continue`
skips both the budget increment and the sleep), and, when `process_page`
returns (always `Ok`), the increment of `local_visited_count` and the
rate-limit sleep — recorded in the ghost `delayLog` with the entry that was
processed.  `done true` marks a worker that stopped on an empty pop,
`done false` one that stopped on the budget test.

External collaborators are oracles: `fetch url` is `utils::fetch_page`
(`none` = transport/HTTP failure), `hrefs body` lists the href attribute
values the scraper selectors produce on `body`, in document order
(HTML parsing is out of scope per the spec). -/

def MAX_DEPTH : Nat := 3

def NUM_CONCURRENT_REQUESTS : Nat := 10

def MAX_PAGES_PER_WORKER : Nat := 10

/-- `CrawlStats` minus `start_time` (a wall-clock timestamp, not modelled). -/
structure CrawlStats where
  pages_visited : Nat
  links_followed : Nat
  links_ignored : Nat
deriving DecidableEq

structure PageLinks where
  links_followed : Nat
  links_ignored : Nat
  new_urls : List String
deriving DecidableEq

/-- The external collaborators. -/
structure Oracles where
  fetch : String → Option String
  hrefs : String → List String

/-- `Crawler::extract_links` (lines 199-235) given the selector hits of the
body: prefix each href with the site origin, count and keep the ones the
filter accepts. -/
def extract_links (hs : List String) (f : URLFilter) : PageLinks :=
  hs.foldl
    (fun acc href =>
      let full_url := "https://en.wikipedia.org" ++ href
      if f.is_valid_url full_url then
        { acc with links_followed := acc.links_followed + 1,
                   new_urls := acc.new_urls ++ [full_url] }
      else { acc with links_ignored := acc.links_ignored + 1 })
    ⟨0, 0, []⟩

/-- The shared state: frontier queue (`SegQueue`, FIFO), visited set, stats,
graph store (`GraphExporter`), plus two ghost logs — `fetchLog` records every
fetch dispatch `(url, depth)`, `delayLog` every entry whose `process_page`
call completed and was followed by the rate-limit sleep. -/
structure Global where
  queue : List (String × Nat)
  visited : List String
  stats : CrawlStats
  nodes : List String
  edges : List (String × String)
  fetchLog : List (String × Nat)
  delayLog : List (String × Nat)
deriving DecidableEq

/-- Program counter inside one `process_page` call. -/
inductive PP
  | checks (url : String) (depth : Nat)
  | fetchStep (url : String) (depth : Nat)
  | mark (url : String) (depth : Nat) (body : String)
  | filterLinks (url : String) (depth : Nat)
      (remaining newLinks : List String) (lf li : Nat)
  | addEdges (url : String) (depth : Nat) (newLinks : List String) (lf li : Nat)
  | bumpStats (url : String) (depth : Nat) (lf li : Nat)
deriving DecidableEq

/-- The frontier entry a `process_page` call is working on. -/
def PP.entry : PP → String × Nat
  | .checks u d => (u, d)
  | .fetchStep u d => (u, d)
  | .mark u d _ => (u, d)
  | .filterLinks u d _ _ _ _ => (u, d)
  | .addEdges u d _ _ _ => (u, d)
  | .bumpStats u d _ _ => (u, d)

/-- `HashSet::insert` (content view, first-insertion order). -/
def insertNode (ns : List String) (u : String) : List String :=
  if ns.contains u then ns else ns ++ [u]

/-- One turn of the graph-update loop: `GraphExporter::add_edge` (insert both
endpoints, append the edge) plus the `queue.push` of the same loop body. -/
def addEdgeStep (url : String) (depth : Nat) (acc : Global) (l : String) :
    Global :=
  { acc with
      nodes := insertNode (insertNode acc.nodes url) l,
      edges := acc.edges ++ [(url, l)],
      queue := acc.queue ++ [(l, depth + 1)] }

/-- One atomic step of `process_page`; `none` means the call returned
(`process_page` always returns `Ok`). -/
def ppStep (o : Oracles) (f : URLFilter) (g : Global) : PP → Global × Option PP
  | .checks url depth =>
      if depth > MAX_DEPTH then (g, none)
      else if !(f.is_valid_url url) then (g, none)
      else if g.visited.contains url then (g, none)
      else (g, some (.fetchStep url depth))
  | .fetchStep url depth =>
      let g' := { g with fetchLog := g.fetchLog ++ [(url, depth)] }
      match o.fetch url with
      | none => (g', none)
      | some body => (g', some (.mark url depth body))
  | .mark url depth body =>
      let g' :=
        if g.visited.contains url then g
        else
          { g with
              visited := g.visited ++ [url],
              stats := { g.stats with
                pages_visited := g.stats.pages_visited + 1 } }
      let pl := extract_links (o.hrefs body) f
      (g', some (.filterLinks url depth pl.new_urls [] pl.links_followed
        pl.links_ignored))
  | .filterLinks url depth remaining newLinks lf li =>
      match remaining with
      | [] => (g, some (.addEdges url depth newLinks lf li))
      | u :: rest =>
          if g.visited.contains u then
            (g, some (.filterLinks url depth rest newLinks lf li))
          else (g, some (.filterLinks url depth rest (newLinks ++ [u]) lf li))
  | .addEdges url depth newLinks lf li =>
      (newLinks.foldl (addEdgeStep url depth) g,
        some (.bumpStats url depth lf li))
  | .bumpStats _ _ lf li =>
      ({ g with stats := { g.stats with
          links_followed := g.stats.links_followed + lf,
          links_ignored := g.stats.links_ignored + li } }, none)

/-- Enough steps for one whole `process_page` call (the call makes at most
`6 + |new_urls|` steps and `|new_urls| ≤ |hrefs body|`); only the seed call
runs uninterleaved, so only it needs a step count. -/
def ppFuel (o : Oracles) (url : String) : Nat :=
  match o.fetch url with
  | none => 8
  | some body => (o.hrefs body).length + 8

/-- Run one `process_page` call to completion without interleaving (the seed
call at lines 329-339 is awaited before any worker is spawned). -/
def runPP (o : Oracles) (f : URLFilter) : Nat → Global → PP → Global
  | 0, g, _ => g
  | fuel + 1, g, pp =>
      match ppStep o f g pp with
      | (g', none) => g'
      | (g', some pp') => runPP o f fuel g' pp'

/-- Worker program counter. -/
inductive WPhase
  | loopHead
  | preCheck (url : String) (depth : Nat)
  | inPage (pp : PP)
  | done (sawEmpty : Bool)
deriving DecidableEq

/-- One worker: `local_visited_count` plus its program counter. -/
structure Worker where
  count : Nat
  phase : WPhase
deriving DecidableEq

/-- One atomic step of one worker (lines 348-384). -/
def wStep (o : Oracles) (f : URLFilter) (g : Global) (w : Worker) :
    Global × Worker :=
  match w.phase with
  | .done _ => (g, w)
  | .loopHead =>
      if w.count < MAX_PAGES_PER_WORKER then
        match g.queue with
        | [] => (g, { w with phase := .done true })
        | (url, depth) :: rest =>
            ({ g with queue := rest }, { w with phase := .preCheck url depth })
      else (g, { w with phase := .done false })
  | .preCheck url depth =>
      if g.visited.contains url then (g, { w with phase := .loopHead })
      else (g, { w with phase := .inPage (.checks url depth) })
  | .inPage pp =>
      match ppStep o f g pp with
      | (g', some pp') => (g', { w with phase := .inPage pp' })
      | (g', none) =>
          ({ g' with delayLog := g'.delayLog ++ [pp.entry] },
            { count := w.count + 1, phase := .loopHead })

/-- Let worker `i` take one step (out-of-range indices are no-ops; the
schedule chooses the interleaving). -/
def stepG (o : Oracles) (f : URLFilter) (st : Global × List Worker)
    (i : Nat) : Global × List Worker :=
  match st.2.get? i with
  | none => st
  | some w =>
      let r := wStep o f st.1 w
      (r.1, st.2.set i r.2)

/-- Run a schedule. -/
def run (o : Oracles) (f : URLFilter) (st : Global × List Worker)
    (sched : List Nat) : Global × List Worker :=
  sched.foldl (stepG o f) st

/-- The pool of `NUM_CONCURRENT_REQUESTS` fresh workers. -/
def initWorkers : List Worker :=
  List.replicate NUM_CONCURRENT_REQUESTS ⟨0, .loopHead⟩

/-- The seed pop-and-process of lines 329-339 (fully awaited, no sleep, no
budget increment). -/
def seedPhase (o : Oracles) (f : URLFilter) (g : Global) : Global :=
  match g.queue with
  | [] => g
  | (url, depth) :: rest =>
      runPP o f (ppFuel o url) { g with queue := rest } (.checks url depth)

/-- The shared state as `start_crawl` finds it: any queue and visited set
(`Crawler::new` plus `load_state` can produce any), stats just reset by
lines 324-327, graph still empty from `Crawler::new`, ghost logs empty. -/
def initGlobal (queue0 : List (String × Nat)) (visited0 : List String) :
    Global :=
  { queue := queue0, visited := visited0, stats := ⟨0, 0, 0⟩,
    nodes := [], edges := [], fetchLog := [], delayLog := [] }

/-- `Crawler::start_crawl` (lines 321-398): reset stats, run the seed call,
then interleave the ten workers along `sched`; `join_all` is the end of the
schedule. -/
def start_crawl (o : Oracles) (f : URLFilter) (queue0 : List (String × Nat))
    (visited0 : List String) (sched : List Nat) : Global × List Worker :=
  run o f (seedPhase o f (initGlobal queue0 visited0), initWorkers) sched

/-- `state::CrawlState`. -/
structure CrawlState where
  queue : List (String × Nat)
  visited : List String
deriving DecidableEq

/-- The `while let Some(item) = self.queue.pop()` drain loop of `get_state`
(lines 176-179). -/
def drainLoop :
    List (String × Nat) → List (String × Nat) →
      List (String × Nat) × List (String × Nat)
  | [], acc => (acc, [])
  | item :: rest, acc => drainLoop rest (acc ++ [item])

/-- `Crawler::get_state` (lines 173-185): clone the visited set, pop every
queue entry into the returned state. -/
def get_state (g : Global) : CrawlState × Global :=
  let r := drainLoop g.queue []
  (⟨r.1, g.visited⟩, { g with queue := r.2 })

/-! ### Concrete runs used as failing inputs / counterexamples -/

/-- A filter-valid URL. -/
def uA : String := "https://en.wikipedia.org/wiki/A"

/-- A filter-valid URL. -/
def uB : String := "https://en.wikipedia.org/wiki/B"

/-- A filter-valid URL. -/
def uC : String := "https://en.wikipedia.org/wiki/C"

/-- Every fetch succeeds with a link-free body. -/
def oracle1 : Oracles := { fetch := fun _ => some "body", hrefs := fun _ => [] }

/-- Every fetch fails. -/
def oracle2 : Oracles := { fetch := fun _ => none, hrefs := fun _ => [] }

/-! ### The discard invariant: no discarded entry is ever fetched -/

/-- An entry that may legitimately reach the fetch: within the depth bound
and accepted by the filter. -/
def entryOk (f : URLFilter) (e : String × Nat) : Prop :=
  e.2 ≤ MAX_DEPTH ∧ f.is_valid_url e.1 = true

/-- A `process_page` program counter about to fetch only holds a good entry. -/
def ppFetchOk (f : URLFilter) (pp : PP) : Prop :=
  ∀ u d, pp = .fetchStep u d → entryOk f (u, d)

/-- Worker-level version of `ppFetchOk`. -/
def wFetchOk (f : URLFilter) (w : Worker) : Prop :=
  ∀ pp, w.phase = .inPage pp → ppFetchOk f pp

/-! ### The budget accounting: `pages_visited ≤ pool × budget + 1` -/

/-- 1 once the `process_page` call has passed the visited-write section (the
only place `pages_visited` is incremented), 0 before. -/
def ppBonus : PP → Nat
  | .checks _ _ => 0
  | .fetchStep _ _ => 0
  | .mark _ _ _ => 0
  | .filterLinks _ _ _ _ _ _ => 1
  | .addEdges _ _ _ _ _ => 1
  | .bumpStats _ _ _ _ => 1

/-- Per-worker potential: completed `process_page` calls plus an in-flight
call that already passed the increment. -/
def wPot (w : Worker) : Nat :=
  w.count + (match w.phase with | .inPage pp => ppBonus pp | _ => 0)

/-- The worker budget facts maintained by every step. -/
def wCountInv (w : Worker) : Prop :=
  w.count ≤ MAX_PAGES_PER_WORKER ∧
  (∀ pp, w.phase = .inPage pp → w.count < MAX_PAGES_PER_WORKER) ∧
  (∀ u d, w.phase = .preCheck u d → w.count < MAX_PAGES_PER_WORKER) ∧
  (w.phase = .done false → w.count = MAX_PAGES_PER_WORKER)

/-- Bonus of the continuation: a finished call counts fully. -/
def optBonus : Option PP → Nat
  | some pp' => ppBonus pp'
  | none => 1

/-- The run invariant for the budget bound: `pages_visited` is at most the
post-seed value `S` plus the summed worker potentials, and every worker
satisfies the budget facts. -/
def potInv (S : Nat) (st : Global × List Worker) : Prop :=
  st.1.stats.pages_visited ≤ S + (st.2.map wPot).sum ∧
    ∀ w ∈ st.2, wCountInv w

end Crawler

/-! ### C8 theorems -/

/-- C8 counterexample: the claim asserts `is_valid` accepts
`https://example.org/wiki/Subject` (no custom rules) and that the domain
check passes for `example.org`.  In the code the default allowed-domain set
is exactly `{en.wikipedia.org}`, so both URLs on `example.org` are rejected
by the domain check, refuting the claim at this concrete input. -/
theorem c8_filter_conjunction_counterexample :
    URLFilter.default.is_valid_url "https://example.org/wiki/Subject" = false ∧
    URLFilter.default.allowed_domains.contains "example.org" = false := by
  decide

/-- C8 (amended): on the actual allowed domain `en.wikipedia.org`, the filter
is conjunctive: `https://en.wikipedia.org/wiki/Talk:Subject` is rejected even
though the domain check and the path-prefix check both pass (it matches the
excluded pattern `Talk:`), and `https://en.wikipedia.org/wiki/Subject` is
accepted when no custom rules are registered. -/
theorem c8_filter_conjunction :
    URLFilter.default.is_valid_url "https://en.wikipedia.org/wiki/Talk:Subject" = false ∧
    parseUrl "https://en.wikipedia.org/wiki/Talk:Subject" =
      some ⟨"en.wikipedia.org", "/wiki/Talk:Subject"⟩ ∧
    URLFilter.default.allowed_domains.contains "en.wikipedia.org" = true ∧
    URLFilter.default.path_prefixes.any
      (fun p => strStartsWith "/wiki/Talk:Subject" p) = true ∧
    URLFilter.default.excluded_patterns.any
      (fun pat => strContains "/wiki/Talk:Subject" pat) = true ∧
    URLFilter.default.is_valid_url "https://en.wikipedia.org/wiki/Subject" = true := by
  decide

namespace PathFinder

theorem nodeBound_eq (al : Adjacency) :
    nodeBound al = (univList al).dedup.length + 1 := rfl

theorem mem_univList_of_mem_neighbors {al : Adjacency} {a b : String}
    (h : b ∈ neighbors al a) : b ∈ univList al := by
  unfold neighbors alFind? at h
  cases hf : al.find? (fun e => e.1 == a) with
  | none => simp [hf] at h
  | some p =>
      have hp : p ∈ al := List.mem_of_find?_eq_some hf
      simp [hf] at h
      exact List.mem_append_right _
        (List.mem_flatten.mpr ⟨p.2, List.mem_map_of_mem Prod.snd hp, h⟩)

theorem mem_univList_of_containsKey {al : Adjacency} {s : String}
    (h : containsKey al s = true) : s ∈ univList al := by
  unfold containsKey alFind? at h
  cases hf : al.find? (fun e => e.1 == s) with
  | none => simp [hf] at h
  | some p =>
      have hp : p ∈ al := List.mem_of_find?_eq_some hf
      have hps := List.find?_some hf
      have hps' : p.1 = s := by simpa using hps
      exact List.mem_append_left _ (hps' ▸ List.mem_map_of_mem Prod.fst hp)

theorem length_le_dedup_of_nodup_subset {v u : List String}
    (hn : v.Nodup) (hs : ∀ x ∈ v, x ∈ u) : v.length ≤ u.dedup.length := by
  have h1 : v.toFinset.card = v.length := List.toFinset_card_of_nodup hn
  have h2 : u.toFinset.card = u.dedup.length := by
    rw [List.card_toFinset]
  have hsub : v.toFinset ⊆ u.toFinset := by
    intro x hx
    rw [List.mem_toFinset] at hx ⊢
    exact hs x hx
  calc v.length = v.toFinset.card := h1.symm
    _ ≤ u.toFinset.card := Finset.card_le_card hsub
    _ = u.dedup.length := h2

theorem pushNeighbors_nil (current : String) (queue visited : List String)
    (cf : List (String × String)) :
    pushNeighbors current [] queue visited cf = (queue, visited, cf) := rfl

theorem pushNeighbors_cons (current next : String)
    (rest queue visited : List String) (cf : List (String × String)) :
    pushNeighbors current (next :: rest) queue visited cf =
      if visited.contains next then
        pushNeighbors current rest queue visited cf
      else
        pushNeighbors current rest (queue ++ [next]) (visited ++ [next])
          (cf ++ [(next, current)]) := by
  by_cases h : visited.contains next
  · have hstep : pushNeighbors current (next :: rest) queue visited cf =
        pushNeighbors current rest queue visited cf := by
      unfold pushNeighbors
      rw [List.foldl_cons]
      congr 1
      exact if_pos h
    rw [hstep, if_pos h]
  · have hstep : pushNeighbors current (next :: rest) queue visited cf =
        pushNeighbors current rest (queue ++ [next]) (visited ++ [next])
          (cf ++ [(next, current)]) := by
      unfold pushNeighbors
      rw [List.foldl_cons]
      congr 1
      exact if_neg h
    rw [hstep, if_neg h]

/-- Shape of the inner neighbor-push loop: it appends some sublist `added` of
the neighbor list (those not yet visited) to the queue, to the visited set and
(paired with `current`) to `came_from`; visited stays duplicate-free. -/
theorem pushNeighbors_spec (current : String) :
    ∀ (ns queue visited : List String) (cf : List (String × String)),
      ∃ added : List String,
        pushNeighbors current ns queue visited cf =
          (queue ++ added, visited ++ added,
            cf ++ added.map (fun x => (x, current))) ∧
        (∀ x ∈ added, x ∈ ns) ∧
        (visited.Nodup → (visited ++ added).Nodup)
  | [], queue, visited, cf => by
      exact ⟨[], by simp [pushNeighbors_nil], by simp, by simp⟩
  | next :: rest, queue, visited, cf => by
      rw [pushNeighbors_cons]
      by_cases hmem : visited.contains next
      · rw [if_pos hmem]
        obtain ⟨added, heq, hsub, hnd⟩ := pushNeighbors_spec current rest queue visited cf
        refine ⟨added, heq, ?_, hnd⟩
        intro x hx; exact List.mem_cons_of_mem _ (hsub x hx)
      · rw [if_neg hmem]
        obtain ⟨added, heq, hsub, hnd⟩ :=
          pushNeighbors_spec current rest (queue ++ [next]) (visited ++ [next])
            (cf ++ [(next, current)])
        refine ⟨next :: added, ?_, ?_, ?_⟩
        · rw [heq]; simp
        · intro x hx
          rcases List.mem_cons.mp hx with h | h
          · simp [h]
          · exact List.mem_cons_of_mem _ (hsub x h)
        · intro hv
          have hnx : next ∉ visited := by
            intro hc; exact hmem (List.elem_eq_true_of_mem hc)
          have hvn : (visited ++ [next]).Nodup := by
            simp [List.nodup_append, hv, hnx]
          simpa using hnd hvn

/-- BFS soundness under unreachability: when `e` is not connected to `s`,
the loop drains the queue without ever popping `e` and reports "No path
found"; in particular the fuel of the embedding is never exhausted. -/
theorem bfsLoop_of_unreachable (al : Adjacency) (s e : String)
    (hne : ¬ Reach al s e) :
    ∀ (fuel : Nat) (queue visited : List String) (cf : List (String × String)),
      queue.length + 2 * (nodeBound al - visited.length) < fuel →
      visited.Nodup →
      (∀ x ∈ visited, x ∈ univList al) →
      (∀ x ∈ queue, x ∈ visited) →
      (∀ x ∈ visited, Reach al s x) →
      bfsLoop al s e fuel queue visited cf = .error (.noPath s e)
  | 0, queue, visited, cf => by
      intro hfuel _ _ _ _
      exact absurd hfuel (Nat.not_lt_zero _)
  | fuel + 1, queue, visited, cf => by
      intro hfuel hnd huniv hqv hreach
      match queue with
      | [] => simp [bfsLoop]
      | current :: rest =>
          have hcur : Reach al s current := hreach current (hqv current (by simp))
          have hce : (current == e) = false := by
            by_contra hc
            have : current = e := by
              have := eq_true_of_ne_false hc
              simpa using this
            exact hne (this ▸ hcur)
          obtain ⟨added, heq, hsub, hndadd⟩ :=
            pushNeighbors_spec current (neighbors al current) rest visited cf
          have hstep : bfsLoop al s e (fuel + 1) (current :: rest) visited cf =
              bfsLoop al s e fuel (rest ++ added) (visited ++ added)
                (cf ++ added.map (fun x => (x, current))) := by
            simp [bfsLoop, hce, heq]
          rw [hstep]
          have hnd' : (visited ++ added).Nodup := hndadd hnd
          have huniv' : ∀ x ∈ visited ++ added, x ∈ univList al := by
            intro x hx
            rcases List.mem_append.mp hx with h | h
            · exact huniv x h
            · exact mem_univList_of_mem_neighbors (hsub x h)
          have hlen : (visited ++ added).length ≤ (univList al).dedup.length :=
            length_le_dedup_of_nodup_subset hnd' huniv'
          refine bfsLoop_of_unreachable al s e hne fuel (rest ++ added)
            (visited ++ added) _ ?_ hnd' huniv' ?_ ?_
          · have hB : (visited ++ added).length ≤ nodeBound al - 1 := by
              rw [nodeBound_eq]; omega
            simp only [List.length_append] at hB ⊢
            simp only [List.length_cons] at hfuel
            omega
          · intro x hx
            rcases List.mem_append.mp hx with h | h
            · exact List.mem_append_left _ (hqv x (List.mem_cons_of_mem _ h))
            · exact List.mem_append_right _ h
          · intro x hx
            rcases List.mem_append.mp hx with h | h
            · exact hreach x h
            · exact Relation.ReflTransGen.tail hcur (hsub x h)

/-- The fuel marker is unreachable from any state whose fuel dominates the
BFS potential `|queue| + 2·(nodeBound - |visited|)`: every iteration either
returns one of the real results or strictly decreases the potential. -/
theorem bfsLoop_no_fuel_out (al : Adjacency) (s e : String) :
    ∀ (fuel : Nat) (queue visited : List String) (cf : List (String × String)),
      queue.length + 2 * (nodeBound al - visited.length) < fuel →
      visited.Nodup →
      (∀ x ∈ visited, x ∈ univList al) →
      (∀ x ∈ queue, x ∈ visited) →
      bfsLoop al s e fuel queue visited cf ≠ .error .outOfFuel
  | 0, queue, visited, cf => by
      intro hfuel _ _ _
      exact absurd hfuel (Nat.not_lt_zero _)
  | fuel + 1, queue, visited, cf => by
      intro hfuel hnd huniv hqv
      match queue with
      | [] => simp [bfsLoop]
      | current :: rest =>
          by_cases hce : (current == e) = true
          · simp only [bfsLoop, hce, if_true]
            cases reconstruct_path cf s e <;> simp
          · rw [Bool.not_eq_true] at hce
            obtain ⟨added, heq, hsub, hndadd⟩ :=
              pushNeighbors_spec current (neighbors al current) rest visited cf
            have hstep : bfsLoop al s e (fuel + 1) (current :: rest) visited cf =
                bfsLoop al s e fuel (rest ++ added) (visited ++ added)
                  (cf ++ added.map (fun x => (x, current))) := by
              simp [bfsLoop, hce, heq]
            rw [hstep]
            have hnd' : (visited ++ added).Nodup := hndadd hnd
            have huniv' : ∀ x ∈ visited ++ added, x ∈ univList al := by
              intro x hx
              rcases List.mem_append.mp hx with h | h
              · exact huniv x h
              · exact mem_univList_of_mem_neighbors (hsub x h)
            have hlen : (visited ++ added).length ≤ (univList al).dedup.length :=
              length_le_dedup_of_nodup_subset hnd' huniv'
            refine bfsLoop_no_fuel_out al s e fuel (rest ++ added)
              (visited ++ added) _ ?_ hnd' huniv' ?_
            · have hB : (visited ++ added).length ≤ nodeBound al - 1 := by
                rw [nodeBound_eq]; omega
              simp only [List.length_append] at hB ⊢
              simp only [List.length_cons] at hfuel
              omega
            · intro x hx
              rcases List.mem_append.mp hx with h | h
              · exact List.mem_append_left _ (hqv x (List.mem_cons_of_mem _ h))
              · exact List.mem_append_right _ h

/-- `find_shortest_path` never returns the embedding's fuel marker: its fuel
`2·nodeBound + 2` exceeds the initial potential, so the fuel parameter is
invisible and the function agrees with the unbounded Rust loop. -/
theorem find_shortest_path_no_fuel_out (al : Adjacency) (s e : String) :
    find_shortest_path al s e ≠ .error .outOfFuel := by
  unfold find_shortest_path
  by_cases hs : containsKey al s
  · by_cases he : containsKey al e
    · rw [hs, he]
      simp only [Bool.not_true, Bool.false_eq_true, if_false]
      have hmem : s ∈ univList al := mem_univList_of_containsKey hs
      refine bfsLoop_no_fuel_out al s e _ [s] [s] [] ?_ (by simp) ?_ ?_
      · have h1 : 1 ≤ nodeBound al := by rw [nodeBound_eq]; omega
        simp only [List.length_cons, List.length_nil]
        omega
      · intro x hx; simp at hx; subst hx; exact hmem
      · intro x hx; simpa using hx
    · rw [Bool.not_eq_true] at he
      rw [he]
      by_cases hs' : (!containsKey al s) = true <;> simp [hs']
  · rw [Bool.not_eq_true] at hs
    rw [hs]
    simp

end PathFinder

section ClaimsPathFinder

open PathFinder

/-- C7: building the PathFinder from the chain A-B-C-D (in any edge insertion
order) makes `find_shortest_path A D` return the 3-hop path [A, B, C, D]; and
whenever the start key is absent, the end key is absent, or no path connects
the two endpoints, `find_shortest_path` returns the corresponding typed
failure (never a path, never a panic, and never the embedding's fuel
marker). -/
theorem c7_bfs_shortest_path :
    (∀ es ∈ ([[("A", "B"), ("B", "C"), ("C", "D")],
        [("A", "B"), ("C", "D"), ("B", "C")],
        [("B", "C"), ("A", "B"), ("C", "D")],
        [("B", "C"), ("C", "D"), ("A", "B")],
        [("C", "D"), ("A", "B"), ("B", "C")],
        [("C", "D"), ("B", "C"), ("A", "B")]] :
        List (List (String × String))),
      find_shortest_path (fromEdges es) "A" "D" = .ok ["A", "B", "C", "D"]) ∧
    (∀ (al : Adjacency) (s e : String),
      (containsKey al s = false →
        find_shortest_path al s e = .error (.startNotFound s)) ∧
      (containsKey al s = true → containsKey al e = false →
        find_shortest_path al s e = .error (.endNotFound e)) ∧
      (containsKey al s = true → containsKey al e = true → ¬ Reach al s e →
        find_shortest_path al s e = .error (.noPath s e))) := by
  constructor
  · decide
  · intro al s e
    refine ⟨?_, ?_, ?_⟩
    · intro hs; simp [find_shortest_path, hs]
    · intro hs he; simp [find_shortest_path, hs, he]
    · intro hs he hne
      have hmem : s ∈ univList al := mem_univList_of_containsKey hs
      simp only [find_shortest_path, hs, he, Bool.not_true, Bool.false_eq_true,
        if_false]
      refine bfsLoop_of_unreachable al s e hne _ [s] [s] [] ?_
        (by simp) ?_ ?_ ?_
      · have h1 : 1 ≤ nodeBound al := by rw [nodeBound_eq]; omega
        simp only [List.length_cons, List.length_nil]
        omega
      · intro x hx; simp at hx; subst hx; exact hmem
      · intro x hx; simpa using hx
      · intro x hx; simp at hx; subst hx; exact Relation.ReflTransGen.refl

/-- C7 witness: the theorem applied at a concrete absent start key. -/
theorem c7_bfs_shortest_path_witness :
    containsKey (fromEdges [("A", "B")]) "X" = false ∧
    find_shortest_path (fromEdges [("A", "B")]) "X" "A" =
      .error (.startNotFound "X") :=
  ⟨by decide, (c7_bfs_shortest_path.2 (fromEdges [("A", "B")]) "X" "A").1 (by decide)⟩

/-- C9: a self-query on a node present in the adjacency keys pops the start
node first, immediately hits `current == end`, and `reconstruct_path` then
fails (the empty `came_from` has no entry for `end`), so the call returns the
"Failed to reconstruct path" error instead of the single-node path. -/
theorem c9_self_query (al : Adjacency) (s : String)
    (hs : containsKey al s = true) :
    find_shortest_path al s s = .error .reconstructFailed := by
  have h2 : 2 * nodeBound al + 2 = (2 * nodeBound al + 1) + 1 := rfl
  simp [find_shortest_path, hs, h2, bfsLoop, reconstruct_path, cfGet]

/-- C9 witness: the self-query failure at a concrete one-edge graph. -/
theorem c9_self_query_witness :
    containsKey (fromEdges [("A", "B")]) "A" = true ∧
    find_shortest_path (fromEdges [("A", "B")]) "A" "A" =
      .error .reconstructFailed :=
  ⟨by decide, c9_self_query (fromEdges [("A", "B")]) "A" (by decide)⟩

end ClaimsPathFinder

namespace Analytics

theorem mem_dedupAdj : ∀ (l : List String) (a : String),
    a ∈ dedupAdj l ↔ a ∈ l
  | [], a => Iff.rfl
  | [x], a => Iff.rfl
  | x :: y :: rest, a => by
      by_cases h : (x == y) = true
      · have hxy : x = y := by simpa using h
        simp only [dedupAdj, if_pos h]
        rw [mem_dedupAdj (y :: rest) a]
        subst hxy
        simp [List.mem_cons]
      · simp only [dedupAdj, if_neg h]
        simp [List.mem_cons, mem_dedupAdj (y :: rest) a]

theorem sorted_dedupAdj : ∀ (l : List String),
    l.Sorted (· ≤ ·) → (dedupAdj l).Sorted (· ≤ ·)
  | [], h => h
  | [x], h => h
  | x :: y :: rest, h => by
      obtain ⟨hall, htail⟩ := List.sorted_cons.mp h
      by_cases hxy : (x == y) = true
      · simp only [dedupAdj, if_pos hxy]
        exact sorted_dedupAdj (y :: rest) htail
      · simp only [dedupAdj, if_neg hxy]
        rw [List.sorted_cons]
        refine ⟨?_, sorted_dedupAdj (y :: rest) htail⟩
        intro b hb
        exact hall b ((mem_dedupAdj (y :: rest) b).mp hb)

theorem nodup_dedupAdj : ∀ (l : List String),
    l.Sorted (· ≤ ·) → (dedupAdj l).Nodup
  | [], _ => List.nodup_nil
  | [x], _ => by simp [dedupAdj]
  | x :: y :: rest, h => by
      obtain ⟨hall, htail⟩ := List.sorted_cons.mp h
      by_cases hxy : (x == y) = true
      · simp only [dedupAdj, if_pos hxy]
        exact nodup_dedupAdj (y :: rest) htail
      · simp only [dedupAdj, if_neg hxy]
        rw [List.nodup_cons]
        refine ⟨?_, nodup_dedupAdj (y :: rest) htail⟩
        intro hmem
        have hx : x ∈ y :: rest := (mem_dedupAdj (y :: rest) x).mp hmem
        have hxy' : x ≠ y := by simpa using hxy
        rcases List.mem_cons.mp hx with rfl | hx'
        · exact hxy' rfl
        · have h1 : x ≤ y := hall y (by simp)
          have h2 : y ≤ x := (List.sorted_cons.mp htail).1 x hx'
          exact hxy' (le_antisymm h1 h2)

/-- Membership in `get_all_pages` is membership in the enumeration. -/
theorem mem_get_all_pages (enum : List String) (a : String) :
    a ∈ get_all_pages enum ↔ a ∈ enum := by
  unfold get_all_pages
  rw [mem_dedupAdj]
  exact (List.perm_insertionSort (fun a b : String => a ≤ b) enum).mem_iff

theorem iterOnce_fold_aux (edges : List (String × String)) (numPages : Nat)
    (initial : ℚ) (scores : List (String × ℚ)) :
    ∀ (pages : List String) (a : List (String × ℚ)) (b : ℚ),
      pages.foldl
        (fun acc p =>
          (acc.1 ++ [(p, newScore edges numPages initial scores p)],
            acc.2 + |newScore edges numPages initial scores p -
              lookupScore scores initial p|))
        (a, b) =
      (a ++ pages.map (fun p => (p, newScore edges numPages initial scores p)),
        b + (pages.map (fun p => |newScore edges numPages initial scores p -
          lookupScore scores initial p|)).sum)
  | [], a, b => by simp
  | p :: ps, a, b => by
      rw [List.foldl_cons,
        iterOnce_fold_aux edges numPages initial scores ps
          (a ++ [(p, newScore edges numPages initial scores p)])
          (b + |newScore edges numPages initial scores p -
            lookupScore scores initial p|)]
      simp [add_assoc]

/-- One iteration in closed form: `new_scores` is one entry per page in page
order, `total_diff` is the sum over pages of the absolute score changes. -/
theorem iterOnce_eq (edges : List (String × String)) (pages : List String)
    (numPages : Nat) (initial : ℚ) (scores : List (String × ℚ)) :
    iterOnce edges pages numPages initial scores =
      (pages.map (fun p => (p, newScore edges numPages initial scores p)),
        (pages.map (fun p => |newScore edges numPages initial scores p -
          lookupScore scores initial p|)).sum) := by
  unfold iterOnce
  rw [iterOnce_fold_aux]
  simp

theorem lookupScore_cons (q : String) (v : ℚ) (rest : List (String × ℚ))
    (dflt : ℚ) (p : String) :
    lookupScore ((q, v) :: rest) dflt p =
      if q == p then v else lookupScore rest dflt p := by
  by_cases h : (q == p) = true
  · simp [lookupScore, List.find?, h]
  · simp only [lookupScore, List.find?] at *
    rw [Bool.eq_false_iff.mpr h]
    simp [h]

theorem lookupScore_map (pages : List String) (g : String → ℚ) (dflt : ℚ)
    (p : String) (hp : p ∈ pages) :
    lookupScore (pages.map (fun q => (q, g q))) dflt p = g p := by
  induction pages with
  | nil => cases hp
  | cons q qs ih =>
      rw [List.map_cons, lookupScore_cons]
      by_cases hq : (q == p) = true
      · have : q = p := by simpa using hq
        rw [if_pos hq, this]
      · have hq' : q ≠ p := by simpa using hq
        rw [if_neg (by simpa using hq)]
        exact ih ((List.mem_cons.mp hp).resolve_left (fun hc => hq' hc.symm))

theorem foldl_add_mul_div (d : ℚ) (f c : String → ℚ) :
    ∀ (l : List String) (a : ℚ),
      l.foldl (fun acc s => acc + d * f s / c s) a =
        a + d * (l.map (fun s => f s / c s)).sum
  | [], a => by simp
  | x :: xs, a => by
      rw [List.foldl_cons, foldl_add_mul_div d f c xs (a + d * f x / c x)]
      simp only [List.map_cons, List.sum_cons]
      ring

/-- The inner accumulation equals the spec formula
`(1-d)/N + d · Σ score(s)/outdegree(s)`. -/
theorem newScore_eq (edges : List (String × String)) (numPages : Nat)
    (initial : ℚ) (scores : List (String × ℚ)) (p : String) :
    newScore edges numPages initial scores p =
      (1 - DAMPING_FACTOR) / (numPages : ℚ) +
        DAMPING_FACTOR * ((inboundOf edges p).map
          (fun src => lookupScore scores initial src /
            (outboundCount edges src : ℚ))).sum :=
  foldl_add_mul_div DAMPING_FACTOR
    (fun src => lookupScore scores initial src)
    (fun src => (outboundCount edges src : ℚ))
    (inboundOf edges p) ((1 - DAMPING_FACTOR) / (numPages : ℚ))

theorem scoresAt_succ (edges : List (String × String)) (k : Nat) :
    scoresAt edges (k + 1) = (pagesOf edges).map (fun p =>
      (p, newScore edges (pagesOf edges).length (initialOf edges)
        (scoresAt edges k) p)) := by
  show (iterOnce edges (pagesOf edges) (pagesOf edges).length (initialOf edges)
    (scoresAt edges k)).1 = _
  rw [iterOnce_eq]

theorem lookup_scoresAt_succ (edges : List (String × String)) (k : Nat)
    (p : String) (hp : p ∈ pagesOf edges) :
    lookupScore (scoresAt edges (k + 1)) (initialOf edges) p =
      newScore edges (pagesOf edges).length (initialOf edges)
        (scoresAt edges k) p := by
  rw [scoresAt_succ]
  exact lookupScore_map _ _ _ _ hp

theorem diffAt_eq (edges : List (String × String)) (k : Nat) :
    diffAt edges k = ((pagesOf edges).map (fun p =>
      |lookupScore (scoresAt edges (k + 1)) (initialOf edges) p -
        lookupScore (scoresAt edges k) (initialOf edges) p|)).sum := by
  unfold diffAt
  rw [iterOnce_eq]
  refine congrArg List.sum (List.map_congr_left ?_)
  intro p hp
  rw [lookup_scoresAt_succ edges k p hp]

theorem pagerankLoop_eq (edges : List (String × String)) :
    ∀ (fuel i : Nat),
      pagerankLoop edges (pagesOf edges) (pagesOf edges).length
          (initialOf edges) fuel (scoresAt edges i) i =
        match findConv edges i fuel with
        | some k => (scoresAt edges k, k, true)
        | none => (scoresAt edges (i + fuel), i + fuel, false)
  | 0, i => by simp [pagerankLoop, findConv]
  | fuel + 1, i => by
      have hst : iterOnce edges (pagesOf edges) (pagesOf edges).length
          (initialOf edges) (scoresAt edges i) =
            (scoresAt edges (i + 1), diffAt edges i) := rfl
      by_cases hc : diffAt edges i < CONVERGENCE_THRESHOLD
      · simp only [pagerankLoop, hst, findConv, if_pos hc]
      · simp only [pagerankLoop, hst, findConv, if_neg hc]
        rw [pagerankLoop_eq edges fuel (i + 1)]
        have harith : i + 1 + fuel = i + (fuel + 1) := by omega
        rw [harith]

theorem findConv_some (edges : List (String × String)) :
    ∀ (fuel i k : Nat), findConv edges i fuel = some k →
      i ≤ k ∧ k < i + fuel ∧ diffAt edges k < CONVERGENCE_THRESHOLD ∧
        ∀ j, i ≤ j → j < k → ¬ diffAt edges j < CONVERGENCE_THRESHOLD
  | 0, i, k => by intro h; simp [findConv] at h
  | fuel + 1, i, k => by
      intro h
      by_cases hc : diffAt edges i < CONVERGENCE_THRESHOLD
      · rw [findConv, if_pos hc] at h
        obtain rfl : i = k := by simpa using h
        exact ⟨le_refl _, by omega, hc, fun j hj1 hj2 => absurd hj1 (by omega)⟩
      · rw [findConv, if_neg hc] at h
        obtain ⟨h1, h2, h3, h4⟩ := findConv_some edges fuel (i + 1) k h
        refine ⟨by omega, by omega, h3, ?_⟩
        intro j hj1 hj2
        rcases eq_or_lt_of_le hj1 with rfl | hlt
        · exact hc
        · exact h4 j (by omega) hj2

theorem findConv_none (edges : List (String × String)) :
    ∀ (fuel i : Nat), findConv edges i fuel = none →
      ∀ j, i ≤ j → j < i + fuel → ¬ diffAt edges j < CONVERGENCE_THRESHOLD
  | 0, i => by intro _ j hj1 hj2; omega
  | fuel + 1, i => by
      intro h j hj1 hj2
      by_cases hc : diffAt edges i < CONVERGENCE_THRESHOLD
      · rw [findConv, if_pos hc] at h; cases h
      · rw [findConv, if_neg hc] at h
        rcases eq_or_lt_of_le hj1 with rfl | hlt
        · exact hc
        · exact findConv_none edges fuel (i + 1) h j (by omega) (by omega)

/-- `calculate_pagerank` in closed form through the iterate trace. -/
theorem calculate_pagerank_eq (edges : List (String × String)) :
    calculate_pagerank edges =
      match findConv edges 0 MAX_ITERATIONS with
      | some k => ⟨scoresAt edges k, k, true⟩
      | none => ⟨scoresAt edges MAX_ITERATIONS, MAX_ITERATIONS, false⟩ := by
  have h := pagerankLoop_eq edges MAX_ITERATIONS 0
  simp only [Nat.zero_add] at h
  show (⟨(pagerankLoop edges (pagesOf edges) (pagesOf edges).length
      (initialOf edges) MAX_ITERATIONS (scoresAt edges 0) 0).1,
    (pagerankLoop edges (pagesOf edges) (pagesOf edges).length
      (initialOf edges) MAX_ITERATIONS (scoresAt edges 0) 0).2.1,
    (pagerankLoop edges (pagesOf edges) (pagesOf edges).length
      (initialOf edges) MAX_ITERATIONS (scoresAt edges 0) 0).2.2⟩ :
      PageRankResults) = _
  rw [h]
  cases findConv edges 0 MAX_ITERATIONS <;> rfl

/-! ### C5 and C6 theorems -/

/-- C5: every iteration computes, for every page `p`, the new score
`(1-d)/N + d · Σ over inbound sources s of score(s)/outdegree(s)` from the
complete prior snapshot (the Jacobi trace `scoresAt`); `total_diff` is the
sum of absolute per-page score changes; when that sum first falls below the
threshold the run returns `converged = true` with the current mapping and
iteration count (below the maximum); otherwise it returns after
`MAX_ITERATIONS = 100` iterations with `converged = false`. -/
theorem c5_pagerank_iteration_and_convergence (edges : List (String × String)) :
    (∀ (k : Nat) (p : String), p ∈ pagesOf edges →
      lookupScore (scoresAt edges (k + 1)) (initialOf edges) p =
        (1 - DAMPING_FACTOR) / ((pagesOf edges).length : ℚ) +
          DAMPING_FACTOR * ((inboundOf edges p).map
            (fun src => lookupScore (scoresAt edges k) (initialOf edges) src /
              (outboundCount edges src : ℚ))).sum) ∧
    (∀ k, diffAt edges k = ((pagesOf edges).map (fun p =>
      |lookupScore (scoresAt edges (k + 1)) (initialOf edges) p -
        lookupScore (scoresAt edges k) (initialOf edges) p|)).sum) ∧
    ((calculate_pagerank edges).converged = true →
      (calculate_pagerank edges).iterations < MAX_ITERATIONS ∧
      (calculate_pagerank edges).scores =
        scoresAt edges (calculate_pagerank edges).iterations ∧
      diffAt edges (calculate_pagerank edges).iterations <
        CONVERGENCE_THRESHOLD ∧
      ∀ j < (calculate_pagerank edges).iterations,
        ¬ diffAt edges j < CONVERGENCE_THRESHOLD) ∧
    ((calculate_pagerank edges).converged = false →
      (calculate_pagerank edges).iterations = MAX_ITERATIONS ∧
      (calculate_pagerank edges).scores = scoresAt edges MAX_ITERATIONS ∧
      ∀ j < MAX_ITERATIONS, ¬ diffAt edges j < CONVERGENCE_THRESHOLD) := by
  refine ⟨?_, diffAt_eq edges, ?_, ?_⟩
  · intro k p hp
    rw [lookup_scoresAt_succ edges k p hp, newScore_eq]
  · intro hconv
    cases hfc : findConv edges 0 MAX_ITERATIONS with
    | none =>
        rw [calculate_pagerank_eq, hfc] at hconv
        have hcf : (false : Bool) = true := hconv
        cases hcf
    | some k =>
        rw [calculate_pagerank_eq, hfc]
        obtain ⟨_, h2, h3, h4⟩ := findConv_some edges MAX_ITERATIONS 0 k hfc
        refine ⟨?_, rfl, h3, ?_⟩
        · show k < MAX_ITERATIONS
          omega
        · intro j hj
          have hj' : j < k := hj
          exact h4 j (by omega) hj'
  · intro hconv
    cases hfc : findConv edges 0 MAX_ITERATIONS with
    | some k =>
        rw [calculate_pagerank_eq, hfc] at hconv
        have hcf : (true : Bool) = false := hconv
        cases hcf
    | none =>
        rw [calculate_pagerank_eq, hfc]
        have h := findConv_none edges MAX_ITERATIONS 0 hfc
        refine ⟨rfl, rfl, ?_⟩
        intro j hj
        have hj' : j < MAX_ITERATIONS := hj
        exact h j (by omega) (by omega)

/-- C5 witness: the iteration formula instantiated on the two-page cycle. -/
theorem c5_pagerank_iteration_and_convergence_witness :
    "a" ∈ pagesOf [("a", "b"), ("b", "a")] ∧
    lookupScore (scoresAt [("a", "b"), ("b", "a")] 1)
        (initialOf [("a", "b"), ("b", "a")]) "a" =
      (1 - DAMPING_FACTOR) / ((pagesOf [("a", "b"), ("b", "a")]).length : ℚ) +
        DAMPING_FACTOR * ((inboundOf [("a", "b"), ("b", "a")] "a").map
          (fun src => lookupScore (scoresAt [("a", "b"), ("b", "a")] 0)
            (initialOf [("a", "b"), ("b", "a")]) src /
            (outboundCount [("a", "b"), ("b", "a")] src : ℚ))).sum :=
  ⟨(mem_get_all_pages _ "a").mpr (by decide),
    (c5_pagerank_iteration_and_convergence [("a", "b"), ("b", "a")]).1 0 "a"
      ((mem_get_all_pages _ "a").mpr (by decide))⟩

/-- `sort(); dedup();` maps membership-equivalent enumerations to the same
page list: the output is sorted, duplicate-free, and membership-equivalent to
the input, and such a list is unique. -/
theorem get_all_pages_eq_of_mem_iff (e1 e2 : List String)
    (h : ∀ x, x ∈ e1 ↔ x ∈ e2) : get_all_pages e1 = get_all_pages e2 := by
  have hs1 := List.sorted_insertionSort (fun a b : String => a ≤ b) e1
  have hs2 := List.sorted_insertionSort (fun a b : String => a ≤ b) e2
  refine List.eq_of_perm_of_sorted ?_ (sorted_dedupAdj _ hs1)
    (sorted_dedupAdj _ hs2)
  refine (List.perm_ext_iff_of_nodup (nodup_dedupAdj _ hs1)
    (nodup_dedupAdj _ hs2)).mpr ?_
  intro a
  rw [mem_dedupAdj, mem_dedupAdj,
    (List.perm_insertionSort (fun a b : String => a ≤ b) e1).mem_iff,
    (List.perm_insertionSort (fun a b : String => a ≤ b) e2).mem_iff]
  exact h a

/-- C6: PageRank is deterministic: the only nondeterminism in
`calculate_pagerank` is the hash-key enumeration order feeding
`get_all_pages`, and any two membership-equivalent enumerations (as produced
by any two runs over the same edge list) yield identical score mappings,
iteration counts and converged flags. -/
theorem c6_pagerank_determinism (edges : List (String × String))
    (e1 e2 : List String) (h : ∀ x, x ∈ e1 ↔ x ∈ e2) :
    calculate_pagerank_enum edges e1 = calculate_pagerank_enum edges e2 := by
  unfold calculate_pagerank_enum
  rw [get_all_pages_eq_of_mem_iff e1 e2 h]

/-- C6 witness: two concrete enumeration orders of the same key set. -/
theorem c6_pagerank_determinism_witness :
    (∀ x : String, x ∈ ["b", "a"] ↔ x ∈ ["a", "b", "b"]) ∧
    calculate_pagerank_enum [("a", "b")] ["b", "a"] =
      calculate_pagerank_enum [("a", "b")] ["a", "b", "b"] := by
  have h : ∀ x : String, x ∈ ["b", "a"] ↔ x ∈ ["a", "b", "b"] := by
    intro x
    simp [List.mem_cons]
    tauto
  exact ⟨h, c6_pagerank_determinism [("a", "b")] _ _ h⟩

end Analytics

namespace Crawler

/-- C1: a run in which the fetch is invoked twice for the same URL.  The
frontier holds `uB` twice (two distinct pages may both discover `uB`); the
seed processes `uA`; workers 0 and 1 each pop one `uB` entry and interleave:
both pass the worker pre-check and the `process_page` read-lock membership
check before either fetches, because the code splits the membership check
and the insertion into two critical sections with the fetch between them
(insertion happens only after a successful fetch, lines 258-283), so both
dispatch the fetch.  This refutes at-most-once fetching and exhibits exactly
the race the spec's atomic check-and-claim is meant to exclude. -/
theorem c1_double_fetch :
    (start_crawl oracle1 URLFilter.default [(uA, 0), (uB, 1), (uB, 1)] []
        [0, 1, 0, 1, 0, 1, 0, 1]).1.fetchLog =
      [(uA, 0), (uB, 1), (uB, 1)] := by
  decide

/-- C2: a run showing that a URL is *not* in the visited set when its fetch
is dispatched and that a failed fetch leaves it unvisited and refetchable in
the same run.  `uC` is in the frontier twice and every fetch fails: the seed
fetches `uC` (fetch fails, nothing is marked), then worker 0 pops the second
`uC` entry, passes both visited checks (the set is still empty) and fetches
`uC` again; at the end of the run the visited set is still empty. -/
theorem c2_failed_fetch_refetched :
    (start_crawl oracle2 URLFilter.default [(uC, 0), (uC, 0)] []
        [0, 0, 0, 0]).1.fetchLog = [(uC, 0), (uC, 0)] ∧
    (start_crawl oracle2 URLFilter.default [(uC, 0), (uC, 0)] []
        [0, 0, 0, 0]).1.visited = [] := by
  decide

/-- C3 counterexample: a worker pops the entry `("x", 4)`, whose depth
exceeds `MAX_DEPTH = 3`; `process_page` discards it without fetching, but the
worker still applies the rate-limit sleep (line 381 runs after every
`process_page` call), refuting "no rate-limit delay for discarded entries":
the discarded entry is in the delay log and not in the fetch log. -/
theorem c3_delay_on_discarded_counterexample :
    (start_crawl oracle1 URLFilter.default [(uA, 0), ("x", 4)] []
        [0, 0, 0]).1.delayLog = [("x", 4)] ∧
    (start_crawl oracle1 URLFilter.default [(uA, 0), ("x", 4)] []
        [0, 0, 0]).1.fetchLog = [(uA, 0)] := by
  decide

/-- C4 counterexample: worker 0 processes ten depth-4 entries (all
discarded, zero successful fetches — the fetch log holds only the seed), yet
stops on the budget test (`done false`, `count = 10`) while the frontier
still holds an entry: `local_visited_count` counts every completed
`process_page` call, not successful fetches, refuting "each worker stops
after successfully fetching its per-worker page budget or when the Frontier
yields nothing". -/
theorem c4_budget_counts_discards_counterexample :
    ((start_crawl oracle1 URLFilter.default
        ([(uA, 0)] ++ List.replicate 11 ("x", 4)) []
        (List.replicate 31 0)).2.get? 0 = some ⟨10, .done false⟩) ∧
    (start_crawl oracle1 URLFilter.default
        ([(uA, 0)] ++ List.replicate 11 ("x", 4)) []
        (List.replicate 31 0)).1.queue = [("x", 4)] ∧
    (start_crawl oracle1 URLFilter.default
        ([(uA, 0)] ++ List.replicate 11 ("x", 4)) []
        (List.replicate 31 0)).1.fetchLog = [(uA, 0)] := by
  decide

theorem drainLoop_eq :
    ∀ (q acc : List (String × Nat)), drainLoop q acc = (acc ++ q, [])
  | [], acc => by simp [drainLoop]
  | item :: rest, acc => by
      rw [drainLoop, drainLoop_eq rest (acc ++ [item])]
      simp

/-- C10: `get_state` is not a read-only snapshot: it pops every entry out of
the frontier (returning them, in pop order, in the saved state together with
a copy of the visited set) and leaves the frontier empty, while visited,
stats and the graph store are unchanged. -/
theorem c10_get_state_drains_queue (g : Global) :
    (get_state g).1.queue = g.queue ∧
    (get_state g).1.visited = g.visited ∧
    (get_state g).2 = { g with queue := [] } := by
  unfold get_state
  rw [drainLoop_eq]
  simp

theorem addEdges_fold_preserves (url : String) (depth : Nat) :
    ∀ (links : List String) (g : Global),
      (links.foldl (addEdgeStep url depth) g).visited = g.visited ∧
      (links.foldl (addEdgeStep url depth) g).stats = g.stats ∧
      (links.foldl (addEdgeStep url depth) g).fetchLog = g.fetchLog ∧
      (links.foldl (addEdgeStep url depth) g).delayLog = g.delayLog
  | [], g => ⟨rfl, rfl, rfl, rfl⟩
  | l :: rest, g => by
      rw [List.foldl_cons]
      exact addEdges_fold_preserves url depth rest (addEdgeStep url depth g l)

theorem ppStep_fetch (o : Oracles) (f : URLFilter) (g : Global) (pp : PP)
    (hlog : ∀ e ∈ g.fetchLog, entryOk f e) (hpp : ppFetchOk f pp) :
    (∀ e ∈ (ppStep o f g pp).1.fetchLog, entryOk f e) ∧
    (∀ pp', (ppStep o f g pp).2 = some pp' → ppFetchOk f pp') := by
  cases pp with
  | checks url depth =>
      simp only [ppStep]
      by_cases h1 : depth > MAX_DEPTH
      · rw [if_pos h1]
        exact ⟨hlog, fun pp' h => by cases h⟩
      rw [if_neg h1]
      by_cases h2 : (!(f.is_valid_url url)) = true
      · rw [if_pos h2]
        exact ⟨hlog, fun pp' h => by cases h⟩
      rw [if_neg h2]
      by_cases h3 : g.visited.contains url = true
      · rw [if_pos h3]
        exact ⟨hlog, fun pp' h => by cases h⟩
      rw [if_neg h3]
      refine ⟨hlog, ?_⟩
      intro pp' h
      have hpp' : pp' = PP.fetchStep url depth := by
        have : some (PP.fetchStep url depth) = some pp' := h
        simpa using this.symm
      subst hpp'
      intro u d hd
      cases hd
      show depth ≤ MAX_DEPTH ∧ f.is_valid_url url = true
      constructor
      · omega
      · revert h2
        cases f.is_valid_url url <;> simp
  | fetchStep url depth =>
      simp only [ppStep]
      cases hf : o.fetch url with
      | none =>
          refine ⟨?_, fun pp' h => by cases h⟩
          intro e he
          rcases List.mem_append.mp he with h | h
          · exact hlog e h
          · have he' : e = (url, depth) := by simpa using h
            rw [he']
            exact hpp url depth rfl
      | some body =>
          refine ⟨?_, ?_⟩
          · intro e he
            rcases List.mem_append.mp he with h | h
            · exact hlog e h
            · have he' : e = (url, depth) := by simpa using h
              rw [he']
              exact hpp url depth rfl
          · intro pp' h
            have hpp' : pp' = PP.mark url depth body := by
              have : some (PP.mark url depth body) = some pp' := h
              simpa using this.symm
            subst hpp'
            intro u d hd
            cases hd
  | mark url depth body =>
      simp only [ppStep]
      by_cases h1 : g.visited.contains url = true
      · rw [if_pos h1]
        exact ⟨hlog, fun pp' h => by
          have hpp' : pp' = PP.filterLinks url depth
              (extract_links (o.hrefs body) f).new_urls []
              (extract_links (o.hrefs body) f).links_followed
              (extract_links (o.hrefs body) f).links_ignored := by
            have := h
            simpa using this.symm
          subst hpp'
          intro u d hd
          cases hd⟩
      · rw [if_neg h1]
        refine ⟨hlog, ?_⟩
        intro pp' h
        have hpp' : pp' = PP.filterLinks url depth
            (extract_links (o.hrefs body) f).new_urls []
            (extract_links (o.hrefs body) f).links_followed
            (extract_links (o.hrefs body) f).links_ignored := by
          have := h
          simpa using this.symm
        subst hpp'
        intro u d hd
        cases hd
  | filterLinks url depth remaining newLinks lf li =>
      cases remaining with
      | nil =>
          exact ⟨hlog, fun pp' h => by
            have hpp' : pp' = PP.addEdges url depth newLinks lf li := by
              have := h
              simpa [ppStep] using this.symm
            subst hpp'
            intro u d hd
            cases hd⟩
      | cons u rest =>
          refine ⟨?_, ?_⟩
          · show ∀ e ∈ (ppStep o f g (.filterLinks url depth (u :: rest)
              newLinks lf li)).1.fetchLog, entryOk f e
            simp only [ppStep]
            by_cases hc : g.visited.contains u = true
            · rw [if_pos hc]; exact hlog
            · rw [if_neg hc]; exact hlog
          · intro pp' h
            intro u' d' hd
            subst hd
            revert h
            simp only [ppStep]
            by_cases hc : g.visited.contains u = true
            · rw [if_pos hc]
              intro h
              have := (Option.some_inj.mp h)
              cases this
            · rw [if_neg hc]
              intro h
              have := (Option.some_inj.mp h)
              cases this
  | addEdges url depth newLinks lf li =>
      refine ⟨?_, ?_⟩
      · intro e he
        have hpres := (addEdges_fold_preserves url depth newLinks g).2.2.1
        have : (ppStep o f g (.addEdges url depth newLinks lf li)).1.fetchLog =
            g.fetchLog := hpres
        rw [this] at he
        exact hlog e he
      · intro pp' h
        have hpp' : pp' = PP.bumpStats url depth lf li := by
          have := h
          simpa [ppStep] using this.symm
        subst hpp'
        intro u d hd
        cases hd
  | bumpStats url depth lf li =>
      exact ⟨hlog, fun pp' h => by cases h⟩

theorem runPP_fetch (o : Oracles) (f : URLFilter) :
    ∀ (fuel : Nat) (g : Global) (pp : PP),
      (∀ e ∈ g.fetchLog, entryOk f e) → ppFetchOk f pp →
      ∀ e ∈ (runPP o f fuel g pp).fetchLog, entryOk f e
  | 0, g, pp => fun hlog _ => hlog
  | fuel + 1, g, pp => by
      intro hlog hpp
      obtain ⟨hlog', hpp'⟩ := ppStep_fetch o f g pp hlog hpp
      rcases hstep : ppStep o f g pp with ⟨g', opt⟩
      rw [hstep] at hlog' hpp'
      simp only [runPP]
      rw [hstep]
      cases opt with
      | none => exact hlog'
      | some pp' => exact runPP_fetch o f fuel g' pp' hlog' (hpp' pp' rfl)

theorem wStep_fetch (o : Oracles) (f : URLFilter) (g : Global) (w : Worker)
    (hlog : ∀ e ∈ g.fetchLog, entryOk f e) (hw : wFetchOk f w) :
    (∀ e ∈ (wStep o f g w).1.fetchLog, entryOk f e) ∧
    wFetchOk f (wStep o f g w).2 := by
  cases hph : w.phase with
  | done b =>
      simp only [wStep, hph]
      exact ⟨hlog, hw⟩
  | loopHead =>
      simp only [wStep, hph]
      by_cases hc : w.count < MAX_PAGES_PER_WORKER
      · rw [if_pos hc]
        cases hq : g.queue with
        | nil => exact ⟨hlog, fun pp h => by simp at h⟩
        | cons hd rest =>
            obtain ⟨url, depth⟩ := hd
            exact ⟨hlog, fun pp h => by simp at h⟩
      · rw [if_neg hc]
        exact ⟨hlog, fun pp h => by simp at h⟩
  | preCheck url depth =>
      simp only [wStep, hph]
      by_cases hc : g.visited.contains url = true
      · rw [if_pos hc]
        exact ⟨hlog, fun pp h => by simp at h⟩
      · rw [if_neg hc]
        refine ⟨hlog, ?_⟩
        intro pp h
        have hpp : pp = PP.checks url depth := by simpa using h.symm
        subst hpp
        intro u d hd
        cases hd
  | inPage pp =>
      simp only [wStep, hph]
      obtain ⟨hlog', hpp'⟩ := ppStep_fetch o f g pp hlog (hw pp hph)
      rcases hstep : ppStep o f g pp with ⟨g', opt⟩
      rw [hstep] at hlog' hpp'
      cases opt with
      | some pp' =>
          refine ⟨hlog', ?_⟩
          intro q hq
          have hq' : q = pp' := by simpa using hq.symm
          subst hq'
          exact hpp' q rfl
      | none =>
          refine ⟨hlog', fun q hq => by simp at hq⟩

theorem run_fetch (o : Oracles) (f : URLFilter) :
    ∀ (sched : List Nat) (st : Global × List Worker),
      (∀ e ∈ st.1.fetchLog, entryOk f e) → (∀ w ∈ st.2, wFetchOk f w) →
      (∀ e ∈ (run o f st sched).1.fetchLog, entryOk f e) ∧
      (∀ w ∈ (run o f st sched).2, wFetchOk f w)
  | [], st => fun h1 h2 => ⟨h1, h2⟩
  | i :: rest, st => by
      intro h1 h2
      have hstep : (∀ e ∈ (stepG o f st i).1.fetchLog, entryOk f e) ∧
          (∀ w ∈ (stepG o f st i).2, wFetchOk f w) := by
        simp only [stepG]
        cases hg : st.2.get? i with
        | none => exact ⟨h1, h2⟩
        | some w =>
            have hw := h2 w (List.get?_mem hg)
            obtain ⟨ha, hb⟩ := wStep_fetch o f st.1 w h1 hw
            refine ⟨ha, ?_⟩
            intro w' hw'
            rcases List.mem_or_eq_of_mem_set hw' with h | h
            · exact h2 w' h
            · rw [h]; exact hb
      exact run_fetch o f rest (stepG o f st i) hstep.1 hstep.2

/-- C3 (amended, positive part): in every run — any oracles, filter, initial
queue/visited state and schedule — every dispatched fetch is for an entry
that passed the depth bound and the URL filter; discarded entries are never
fetched.  (The rate-limit half of the claim is refuted by
`c3_delay_on_discarded_counterexample`: the sleep at line 381 follows every
completed `process_page` call, including discarding ones; only entries
dropped by the worker's own pre-pop visited check skip it.) -/
theorem c3_discarded_entries_never_fetched (o : Oracles) (f : URLFilter)
    (queue0 : List (String × Nat)) (visited0 : List String)
    (sched : List Nat) :
    ∀ e ∈ (start_crawl o f queue0 visited0 sched).1.fetchLog,
      e.2 ≤ MAX_DEPTH ∧ f.is_valid_url e.1 = true := by
  have hseed : ∀ e ∈ (seedPhase o f (initGlobal queue0 visited0)).fetchLog,
      entryOk f e := by
    simp only [seedPhase]
    cases hq : (initGlobal queue0 visited0).queue with
    | nil =>
        intro e he
        simp [initGlobal] at he
    | cons hd rest =>
        obtain ⟨url, depth⟩ := hd
        apply runPP_fetch o f
        · intro e he
          simp [initGlobal] at he
        · intro u d hd'
          cases hd'
  have hw0 : ∀ w ∈ initWorkers, wFetchOk f w := by
    intro w hw
    have hrep : w = ⟨0, .loopHead⟩ := List.eq_of_mem_replicate hw
    rw [hrep]
    intro pp h
    simp at h
  exact (run_fetch o f sched _ hseed hw0).1

/-- C3 witness: the invariant applied to a run whose fetch log holds the
(valid, depth-0) seed entry. -/
theorem c3_discarded_entries_never_fetched_witness :
    ((uA, 0) ∈ (start_crawl oracle1 URLFilter.default [(uA, 0)] []
      []).1.fetchLog) ∧
    ((uA, 0).2 ≤ MAX_DEPTH ∧
      URLFilter.default.is_valid_url (uA, 0).1 = true) :=
  ⟨by decide,
    c3_discarded_entries_never_fetched oracle1 URLFilter.default [(uA, 0)] []
      [] (uA, 0) (by decide)⟩

theorem ppBonus_le_one (pp : PP) : ppBonus pp ≤ 1 := by
  cases pp <;> simp [ppBonus]

/-- Each `process_page` step raises `pages_visited` by at most what the
bonus accounting allows (the increment happens exactly at the `mark` step). -/
theorem ppStep_pot (o : Oracles) (f : URLFilter) (g : Global) (pp : PP) :
    (ppStep o f g pp).1.stats.pages_visited + ppBonus pp ≤
      g.stats.pages_visited + optBonus (ppStep o f g pp).2 := by
  cases pp with
  | checks url depth =>
      simp only [ppStep]
      by_cases h1 : depth > MAX_DEPTH
      · rw [if_pos h1]; simp [ppBonus, optBonus]
      rw [if_neg h1]
      by_cases h2 : (!(f.is_valid_url url)) = true
      · rw [if_pos h2]; simp [ppBonus, optBonus]
      rw [if_neg h2]
      by_cases h3 : g.visited.contains url = true
      · rw [if_pos h3]; simp [ppBonus, optBonus]
      · rw [if_neg h3]; simp [ppBonus, optBonus]
  | fetchStep url depth =>
      simp only [ppStep]
      cases hf : o.fetch url with
      | none => simp [ppBonus, optBonus]
      | some body => simp [ppBonus, optBonus]
  | mark url depth body =>
      simp only [ppStep]
      by_cases h1 : g.visited.contains url = true
      · rw [if_pos h1]; simp [ppBonus, optBonus]
      · rw [if_neg h1]; simp [ppBonus, optBonus]
  | filterLinks url depth remaining newLinks lf li =>
      cases remaining with
      | nil => simp [ppStep, ppBonus, optBonus]
      | cons u rest =>
          simp only [ppStep]
          by_cases hc : g.visited.contains u = true
          · rw [if_pos hc]; simp [ppBonus, optBonus]
          · rw [if_neg hc]; simp [ppBonus, optBonus]
  | addEdges url depth newLinks lf li =>
      have hpres := (addEdges_fold_preserves url depth newLinks g).2.1
      simp only [ppStep, ppBonus, optBonus]
      rw [hpres]
  | bumpStats url depth lf li =>
      simp [ppStep, ppBonus, optBonus]

/-- One worker step preserves the budget facts and the potential accounting:
the shared `pages_visited` can only grow as much as this worker's potential
does. -/
theorem wStep_pot (o : Oracles) (f : URLFilter) (g : Global) (w : Worker)
    (hinv : wCountInv w) :
    (wStep o f g w).1.stats.pages_visited + wPot w ≤
      g.stats.pages_visited + wPot (wStep o f g w).2 ∧
    wCountInv (wStep o f g w).2 := by
  obtain ⟨hle, hin, hpre, hdone⟩ := hinv
  cases hph : w.phase with
  | done b =>
      simp only [wStep, hph]
      refine ⟨le_refl _, hle, ?_, ?_, ?_⟩
      · intro pp h; rw [hph] at h; simp at h
      · intro u d h; rw [hph] at h; simp at h
      · intro h; exact hdone h
  | loopHead =>
      simp only [wStep, hph]
      by_cases hc : w.count < MAX_PAGES_PER_WORKER
      · rw [if_pos hc]
        cases hq : g.queue with
        | nil =>
            refine ⟨?_, hle, ?_, ?_, ?_⟩
            · simp [wPot, hph]
            · intro pp h; simp at h
            · intro u d h; simp at h
            · intro h; simp at h
        | cons hd rest =>
            obtain ⟨url, depth⟩ := hd
            refine ⟨?_, hle, ?_, ?_, ?_⟩
            · simp [wPot, hph]
            · intro pp h; simp at h
            · intro u d h; exact hc
            · intro h; simp at h
      · rw [if_neg hc]
        refine ⟨?_, hle, ?_, ?_, ?_⟩
        · simp [wPot, hph]
        · intro pp h; simp at h
        · intro u d h; simp at h
        · intro _
          show w.count = MAX_PAGES_PER_WORKER
          omega
  | preCheck url depth =>
      simp only [wStep, hph]
      by_cases hc : g.visited.contains url = true
      · rw [if_pos hc]
        refine ⟨?_, hle, ?_, ?_, ?_⟩
        · simp [wPot, hph]
        · intro pp h; simp at h
        · intro u d h; simp at h
        · intro h; simp at h
      · rw [if_neg hc]
        refine ⟨?_, hle, ?_, ?_, ?_⟩
        · simp [wPot, hph, ppBonus]
        · intro pp h
          exact hpre url depth hph
        · intro u d h; simp at h
        · intro h; simp at h
  | inPage pp =>
      have hcount := hin pp hph
      have hpot := ppStep_pot o f g pp
      rcases hstep : ppStep o f g pp with ⟨g', opt⟩
      rw [hstep] at hpot
      cases opt with
      | some pp' =>
          simp only [optBonus] at hpot
          have hw : wStep o f g w = (g', { w with phase := .inPage pp' }) := by
            simp only [wStep, hph, hstep]
          rw [hw]
          refine ⟨?_, hle, ?_, ?_, ?_⟩
          · simp only [wPot, hph]
            omega
          · intro q h; exact hcount
          · intro u d h; simp at h
          · intro h; simp at h
      | none =>
          simp only [optBonus] at hpot
          have hw : wStep o f g w =
              ({ g' with delayLog := g'.delayLog ++ [pp.entry] },
                { count := w.count + 1, phase := .loopHead }) := by
            simp only [wStep, hph, hstep]
          rw [hw]
          refine ⟨?_, by show w.count + 1 ≤ MAX_PAGES_PER_WORKER; omega, ?_, ?_, ?_⟩
          · simp only [wPot, hph]
            omega
          · intro q h; simp at h
          · intro u d h; simp at h
          · intro h; simp at h

theorem sum_set_add :
    ∀ (xs : List Nat) (i : Nat) (y x : Nat), xs.get? i = some x →
      (xs.set i y).sum + x = xs.sum + y
  | [], i, y, x => by intro h; simp at h
  | a :: rest, 0, y, x => by
      intro h
      have ha : a = x := by simpa using h
      subst ha
      simp [List.set]
      omega
  | a :: rest, i + 1, y, x => by
      intro h
      have hrec := sum_set_add rest i y x (by simpa using h)
      simp only [List.set, List.sum_cons]
      omega

theorem stepG_pot (o : Oracles) (f : URLFilter) (S : Nat)
    (st : Global × List Worker) (i : Nat) (h : potInv S st) :
    potInv S (stepG o f st i) := by
  obtain ⟨hpv, hws⟩ := h
  simp only [stepG]
  cases hg : st.2.get? i with
  | none => exact ⟨hpv, hws⟩
  | some w =>
      have hwinv := hws w (List.get?_mem hg)
      obtain ⟨hineq, hinv'⟩ := wStep_pot o f st.1 w hwinv
      constructor
      · have hmap : (st.2.map wPot).get? i = some (wPot w) := by
          rw [List.get?_map, hg]
          rfl
        have hsum := sum_set_add (st.2.map wPot) i
          (wPot (wStep o f st.1 w).2) (wPot w) hmap
        have hset : ((st.2.set i (wStep o f st.1 w).2).map wPot) =
            (st.2.map wPot).set i (wPot (wStep o f st.1 w).2) :=
          List.map_set ..
        simp only [hset]
        omega
      · intro w' hw'
        rcases List.mem_or_eq_of_mem_set hw' with h | h
        · exact hws w' h
        · rw [h]; exact hinv'

theorem run_pot (o : Oracles) (f : URLFilter) (S : Nat) :
    ∀ (sched : List Nat) (st : Global × List Worker),
      potInv S st → potInv S (run o f st sched)
  | [], _ => fun h => h
  | i :: rest, st => fun h =>
      run_pot o f S rest (stepG o f st i) (stepG_pot o f S st i h)

theorem run_length (o : Oracles) (f : URLFilter) :
    ∀ (sched : List Nat) (st : Global × List Worker),
      ((run o f st sched).2).length = st.2.length
  | [], _ => rfl
  | i :: rest, st => by
      have hrec := run_length o f rest (stepG o f st i)
      have hstep : ((stepG o f st i).2).length = st.2.length := by
        simp only [stepG]
        cases hg : st.2.get? i with
        | none => rfl
        | some w => simp [List.length_set]
      exact hrec.trans hstep

theorem runPP_pot (o : Oracles) (f : URLFilter) :
    ∀ (fuel : Nat) (g : Global) (pp : PP),
      (runPP o f fuel g pp).stats.pages_visited + ppBonus pp ≤
        g.stats.pages_visited + 1
  | 0, g, pp => by
      have := ppBonus_le_one pp
      simp only [runPP]
      omega
  | fuel + 1, g, pp => by
      have hpot := ppStep_pot o f g pp
      rcases hstep : ppStep o f g pp with ⟨g', opt⟩
      rw [hstep] at hpot
      cases opt with
      | none =>
          simp only [optBonus] at hpot
          have hr : runPP o f (fuel + 1) g pp = g' := by
            simp only [runPP, hstep]
          rw [hr]
          exact hpot
      | some pp' =>
          simp only [optBonus] at hpot
          have hr : runPP o f (fuel + 1) g pp = runPP o f fuel g' pp' := by
            simp only [runPP, hstep]
          rw [hr]
          have hrec := runPP_pot o f fuel g' pp'
          omega

theorem seedPhase_pot (o : Oracles) (f : URLFilter) (g : Global) :
    (seedPhase o f g).stats.pages_visited ≤ g.stats.pages_visited + 1 := by
  cases hq : g.queue with
  | nil =>
      have h : seedPhase o f g = g := by simp only [seedPhase, hq]
      rw [h]
      omega
  | cons hd rest =>
      obtain ⟨url, depth⟩ := hd
      have h : seedPhase o f g = runPP o f (ppFuel o url)
          { g with queue := rest } (.checks url depth) := by
        simp only [seedPhase, hq]
      rw [h]
      have hb := runPP_pot o f (ppFuel o url) { g with queue := rest }
        (.checks url depth)
      simp only [ppBonus] at hb
      have hst : ({ g with queue := rest } : Global).stats.pages_visited =
          g.stats.pages_visited := rfl
      omega

/-- C4 (amended): in every run — any oracles, filter, initial state and
schedule — `pages_visited` is at most `pool_size × budget + 1 = 101` (the
`+1` is the seed entry, processed before the workers without counting
against any budget), every worker's `local_visited_count` is at most the
budget, and a worker that stopped on the budget test (`done false`, i.e.
not on an empty pop) has processed exactly `MAX_PAGES_PER_WORKER` entries
through `process_page` — successful, failed and discarded ones alike. -/
theorem c4_pages_visited_bound (o : Oracles) (f : URLFilter)
    (queue0 : List (String × Nat)) (visited0 : List String)
    (sched : List Nat) :
    (start_crawl o f queue0 visited0 sched).1.stats.pages_visited ≤
      NUM_CONCURRENT_REQUESTS * MAX_PAGES_PER_WORKER + 1 ∧
    ∀ w ∈ (start_crawl o f queue0 visited0 sched).2,
      w.count ≤ MAX_PAGES_PER_WORKER ∧
      (w.phase = .done false → w.count = MAX_PAGES_PER_WORKER) := by
  have hS : (seedPhase o f (initGlobal queue0 visited0)).stats.pages_visited ≤ 1 := by
    have := seedPhase_pot o f (initGlobal queue0 visited0)
    simpa [initGlobal] using this
  have hinit : potInv (seedPhase o f (initGlobal queue0 visited0)).stats.pages_visited
      (seedPhase o f (initGlobal queue0 visited0), initWorkers) := by
    constructor
    · exact Nat.le_add_right _ _
    · intro w hw
      have hrep : w = ⟨0, .loopHead⟩ := List.eq_of_mem_replicate hw
      rw [hrep]
      refine ⟨by simp [MAX_PAGES_PER_WORKER], ?_, ?_, ?_⟩
      · intro pp h; simp at h
      · intro u d h; simp at h
      · intro h; simp at h
  have hfin := run_pot o f _ sched _ hinit
  obtain ⟨hpv, hws⟩ := hfin
  constructor
  · have hlen : ((run o f (seedPhase o f (initGlobal queue0 visited0),
        initWorkers) sched).2).length = NUM_CONCURRENT_REQUESTS := by
      rw [run_length]
      simp [initWorkers]
    have h10 : ∀ x ∈ ((run o f (seedPhase o f (initGlobal queue0 visited0),
        initWorkers) sched).2).map wPot, x ≤ MAX_PAGES_PER_WORKER := by
      intro x hx
      obtain ⟨w, hw, rfl⟩ := List.mem_map.mp hx
      obtain ⟨hle, hin, _, _⟩ := hws w hw
      cases hph : w.phase with
      | inPage pp =>
          have hcnt := hin pp hph
          have hb := ppBonus_le_one pp
          simp only [wPot, hph]
          omega
      | done b => simp only [wPot, hph]; omega
      | loopHead => simp only [wPot, hph]; omega
      | preCheck u d => simp only [wPot, hph]; omega
    have hsum := List.sum_le_card_nsmul _ _ h10
    rw [List.length_map, hlen] at hsum
    have hsum' : ((run o f (seedPhase o f (initGlobal queue0 visited0),
        initWorkers) sched).2.map wPot).sum ≤
          NUM_CONCURRENT_REQUESTS * MAX_PAGES_PER_WORKER := by
      simpa [smul_eq_mul] using hsum
    show (run o f (seedPhase o f (initGlobal queue0 visited0), initWorkers)
      sched).1.stats.pages_visited ≤
        NUM_CONCURRENT_REQUESTS * MAX_PAGES_PER_WORKER + 1
    omega
  · intro w hw
    obtain ⟨hle, _, _, hdone⟩ := hws w hw
    exact ⟨hle, hdone⟩

/-- C4 witness: the bound applied to a concrete (empty-schedule) run and one
of its workers. -/
theorem c4_pages_visited_bound_witness :
    ((start_crawl oracle1 URLFilter.default [] [] []).1.stats.pages_visited ≤
      NUM_CONCURRENT_REQUESTS * MAX_PAGES_PER_WORKER + 1) ∧
    ((⟨0, .loopHead⟩ : Worker) ∈ (start_crawl oracle1 URLFilter.default [] []
      []).2) ∧
    ((⟨0, .loopHead⟩ : Worker).count ≤ MAX_PAGES_PER_WORKER ∧
      ((⟨0, .loopHead⟩ : Worker).phase = .done false →
        (⟨0, .loopHead⟩ : Worker).count = MAX_PAGES_PER_WORKER)) :=
  ⟨(c4_pages_visited_bound oracle1 URLFilter.default [] [] []).1,
    by decide,
    (c4_pages_visited_bound oracle1 URLFilter.default [] [] []).2
      ⟨0, .loopHead⟩ (by decide)⟩

end Crawler

end WikipediaMapper
